import Mathlib

/-!
# Verification of `scripts/compare_responses.py`

A shallow embedding, in Lean 4, of the core of `compare_responses.py`: the
parsed-document data model, Python (dynamic) equality on parsed values, the
recursive structural differ `compare_dicts`, the normalization cascade
`normalize_to_object` (with the two third-party parsers `json.loads` and
`xmltodict.parse` taken as explicit function parameters, exceptions modelled
as `Option.none` results), and the pure dataflow core of `compare_files`
(file I/O stripped; the three report payloads are returned as a structure).

Python dictionaries are modelled as insertion-ordered association lists with
unique keys (`JObj`); Python lists as `JArr`; scalars as `Prim`, with numbers
carried as exact rationals so that Python's cross-type numeric equality
(`1 == True`, `1 == 1.0`) is captured by `primEq`.
-/

namespace CompareResponses

/-- Scalar (leaf) values of a parsed document: JSON null / booleans /
integers / floats / strings.  Floats are modelled as exact rationals. -/
inductive Prim where
  | null
  | bool (b : Bool)
  | int (n : Int)
  | float (q : Rat)
  | str (s : String)
deriving DecidableEq

mutual
/-- A parsed document tree: scalar, list, or mapping. -/
inductive JVal where
  | prim (p : Prim)
  | arr (a : JArr)
  | obj (o : JObj)
/-- A Python list of parsed values. -/
inductive JArr where
  | nil
  | cons (hd : JVal) (tl : JArr)
/-- A Python dict of parsed values: insertion-ordered key/value pairs.
Real Python dicts always have unique keys; that is the `nodupKeys`
well-formedness predicate below, assumed where a proof needs it. -/
inductive JObj where
  | nil
  | cons (key : String) (val : JVal) (tl : JObj)
end

/-- Python dict lookup `o[k]` / `k in o`, as an association-list search. -/
def lookupF (k : String) : JObj → Option JVal
  | .nil => none
  | .cons k' v rest => if k = k' then some v else lookupF k rest

/-- The numeric value of a scalar, when it has one.  Python's `bool` is a
subclass of `int`: `True` has numeric value 1 and `False` 0. -/
def numVal : Prim → Option Rat
  | .bool b => some (if b then 1 else 0)
  | .int n => some n
  | .float q => some q
  | _ => none

/-- Python `==` on scalar leaves: numbers (bool/int/float) compare by
numeric value across types; otherwise values of distinct types are unequal,
strings compare as strings and `None == None`. -/
def primEq (a b : Prim) : Bool :=
  match numVal a, numVal b with
  | some x, some y => x == y
  | _, _ =>
    match a, b with
    | .null, .null => true
    | .str s, .str t => s == t
    | _, _ => false

/-- `len` of a Python dict. -/
def objLen : JObj → Nat
  | .nil => 0
  | .cons _ _ rest => objLen rest + 1

mutual
/-- Python `==` on parsed values (`old != new` on line 79 of the source is
its negation): dicts compare as key/value maps, lists elementwise, scalars
by `primEq`, and values of different container types are unequal. -/
def pyEq : JVal → JVal → Bool
  | .prim a, .prim b => primEq a b
  | .arr a, .arr b => pyEqArr a b
  | .obj a, .obj b => (objLen a == objLen b) && pyEqObjSub a b
  | _, _ => false
/-- Python `==` on lists: same length and elementwise equal. -/
def pyEqArr : JArr → JArr → Bool
  | .nil, .nil => true
  | .cons x xs, .cons y ys => pyEq x y && pyEqArr xs ys
  | _, _ => false
/-- Every key of the first dict is present in the second with a
`pyEq`-equal value.  Together with equal lengths (and unique keys, as in
Python dicts) this is Python dict equality. -/
def pyEqObjSub : JObj → JObj → Bool
  | .nil, _ => true
  | .cons k v rest, b =>
    (match lookupF k b with
     | some w => pyEq v w
     | none => false) && pyEqObjSub rest b
end

/-- `len` of a Python list. -/
def jlen : JArr → Nat
  | .nil => 0
  | .cons _ rest => jlen rest + 1

/-- Drop the first `n` elements of a Python list (the suffix iterated by
`for i in range(minlen, len(...))` in the source). -/
def jdrop : Nat → JArr → JArr
  | 0, a => a
  | _ + 1, .nil => .nil
  | n + 1, .cons _ rest => jdrop n rest

/-- Indexing `a[i]` into a Python list, `none` when out of range. -/
def jget : JArr → Nat → Option JVal
  | .nil, _ => none
  | .cons x _, 0 => some x
  | .cons _ rest, n + 1 => jget rest n

/-- View a `JArr` as a Lean list, to state specifications with the
standard list combinators. -/
def JArr.toList : JArr → List JVal
  | .nil => []
  | .cons x rest => x :: JArr.toList rest

/-- View a `JObj` as a Lean list of key/value pairs. -/
def JObj.toList : JObj → List (String × JVal)
  | .nil => []
  | .cons k v rest => (k, v) :: JObj.toList rest

/-- The f-string `f"[{i}]"` rendering a list index. -/
def brack (i : Nat) : String := "[" ++ toString i ++ "]"

/-- The nested `full_path` helper of `compare_dicts`:
`f"{path}.{sub}" if path else str(sub)` (Python string truthiness is
non-emptiness). -/
def full_path (path sub : String) : String :=
  if path = "" then sub else path ++ "." ++ sub

/-- One change record of the structural diff, as appended to `changes`:
`removed` carries the old value, `added` the new value, `modified` both. -/
inductive Change where
  | removed (path : String) (old : JVal)
  | added (path : String) (new : JVal)
  | modified (path : String) (old new : JVal)

/-- The second loop of the dict case (lines 62-64): for each key of `new`
absent from `old`, one `added` record, in `new`'s iteration order. -/
def cmpNewKeys (n : JObj) (o : JObj) (path : String) : List Change :=
  match n with
  | .nil => []
  | .cons k w rest =>
    (match lookupF k o with
     | some _ => []
     | none => [Change.added (full_path path k) w]) ++ cmpNewKeys rest o path

/-- The surplus loop `for i in range(minlen, len(old))` (lines 71-73):
`rest` is the suffix of `old` from index `i` on. -/
def remSurplus (rest : JArr) (path : String) (i : Nat) : List Change :=
  match rest with
  | .nil => []
  | .cons x xs => Change.removed (full_path path (brack i)) x :: remSurplus xs path (i + 1)

/-- The surplus loop `for i in range(minlen, len(new))` (lines 74-76). -/
def addSurplus (rest : JArr) (path : String) (i : Nat) : List Change :=
  match rest with
  | .nil => []
  | .cons x xs => Change.added (full_path path (brack i)) x :: addSurplus xs path (i + 1)

mutual
/-- `compare_dicts(old, new, path)` (lines 50-81 of the source): the
recursive structural differ, paths carried as already-rendered strings. -/
def compare_dicts (old new : JVal) (path : String) : List Change :=
  match old, new with
  | .obj o, .obj n => cmpOldKeys o n path ++ cmpNewKeys n o path
  | .arr a, .arr b =>
    cmpCommon a b path 0 ++
    (if jlen a > jlen b then remSurplus (jdrop (jlen b) a) path (jlen b)
     else if jlen b > jlen a then addSurplus (jdrop (jlen a) b) path (jlen a)
     else [])
  | _, _ =>
    if pyEq old new then []
    else [Change.modified (if path = "" then "/" else path) old new]
/-- The first loop of the dict case (lines 57-61): iterate `old`'s keys in
insertion order; a key absent from `new` yields a `removed` record, a
shared key recurses at the extended path. -/
def cmpOldKeys (o : JObj) (n : JObj) (path : String) : List Change :=
  match o with
  | .nil => []
  | .cons k v rest =>
    (match lookupF k n with
     | none => [Change.removed (full_path path k) v]
     | some w => compare_dicts v w (full_path path k)) ++ cmpOldKeys rest n path
/-- The shared-prefix loop `for i in range(minlen)` (lines 69-70): recurse
elementwise while both lists are nonempty, counting the index up. -/
def cmpCommon (a b : JArr) (path : String) (i : Nat) : List Change :=
  match a, b with
  | .cons x xs, .cons y ys =>
    compare_dicts x y (full_path path (brack i)) ++ cmpCommon xs ys path (i + 1)
  | _, _ => []
end

/-- One segment of a logical path: a mapping field name or a list index.
This is the spec's Path data model; the source renders paths to strings
eagerly, and `renderPath`/`compare_seg` below relate the two views. -/
inductive Seg where
  | name (s : String)
  | idx (i : Nat)
deriving DecidableEq

/-- A change record whose path is kept as a logical segment sequence. -/
inductive ChangeS where
  | removed (segs : List Seg) (old : JVal)
  | added (segs : List Seg) (new : JVal)
  | modified (segs : List Seg) (old new : JVal)

/-- Segment-level counterpart of `cmpNewKeys`. -/
def cmpSegNewKeys (n : JObj) (o : JObj) (segs : List Seg) : List ChangeS :=
  match n with
  | .nil => []
  | .cons k w rest =>
    (match lookupF k o with
     | some _ => []
     | none => [ChangeS.added (segs ++ [Seg.name k]) w]) ++ cmpSegNewKeys rest o segs

/-- Segment-level counterpart of `remSurplus`. -/
def remSegSurplus (rest : JArr) (segs : List Seg) (i : Nat) : List ChangeS :=
  match rest with
  | .nil => []
  | .cons x xs => ChangeS.removed (segs ++ [Seg.idx i]) x :: remSegSurplus xs segs (i + 1)

/-- Segment-level counterpart of `addSurplus`. -/
def addSegSurplus (rest : JArr) (segs : List Seg) (i : Nat) : List ChangeS :=
  match rest with
  | .nil => []
  | .cons x xs => ChangeS.added (segs ++ [Seg.idx i]) x :: addSegSurplus xs segs (i + 1)

mutual
/-- `compare_dicts` with the path tracked as the logical list of segments
instead of an eagerly rendered string.  `renderChangeS` maps its records
back to the source's string-path records. -/
def compare_seg (old new : JVal) (segs : List Seg) : List ChangeS :=
  match old, new with
  | .obj o, .obj n => cmpSegOldKeys o n segs ++ cmpSegNewKeys n o segs
  | .arr a, .arr b =>
    cmpSegCommon a b segs 0 ++
    (if jlen a > jlen b then remSegSurplus (jdrop (jlen b) a) segs (jlen b)
     else if jlen b > jlen a then addSegSurplus (jdrop (jlen a) b) segs (jlen a)
     else [])
  | _, _ =>
    if pyEq old new then []
    else [ChangeS.modified segs old new]
/-- Segment-level counterpart of `cmpOldKeys`. -/
def cmpSegOldKeys (o : JObj) (n : JObj) (segs : List Seg) : List ChangeS :=
  match o with
  | .nil => []
  | .cons k v rest =>
    (match lookupF k n with
     | none => [ChangeS.removed (segs ++ [Seg.name k]) v]
     | some w => compare_seg v w (segs ++ [Seg.name k])) ++ cmpSegOldKeys rest n segs
/-- Segment-level counterpart of `cmpCommon`. -/
def cmpSegCommon (a b : JArr) (segs : List Seg) (i : Nat) : List ChangeS :=
  match a, b with
  | .cons x xs, .cons y ys =>
    compare_seg x y (segs ++ [Seg.idx i]) ++ cmpSegCommon xs ys segs (i + 1)
  | _, _ => []
end

/-- The string a segment contributes to the source's rendered path:
a field name stands for itself, an index renders as `f"[{i}]"`. -/
def seg_str : Seg → String
  | .name s => s
  | .idx i => brack i

/-- The rendered path the source actually builds by iterated `full_path`:
all segments joined by a dot, including a dot before a bracketed index. -/
def renderPath : List Seg → String
  | [] => ""
  | [g] => seg_str g
  | g :: g' :: rest => seg_str g ++ "." ++ renderPath (g' :: rest)

/-- Modelled from the spec: the Path rendering described in section 3 of
the design ("rendered as a dot-joined string (e.g. `a.b[2].c`)") and in
claim C3, where a field name contributes `.name` and a list index
contributes `[i]` with no separating dot — continuation after the first
segment. -/
def renderClaimRest : List Seg → String
  | [] => ""
  | .name s :: rest => "." ++ s ++ renderClaimRest rest
  | .idx i :: rest => brack i ++ renderClaimRest rest

/-- Modelled from the spec: the full spec-side Path rendering; the empty
(root) path renders as `/`. -/
def renderClaim : List Seg → String
  | [] => "/"
  | .name s :: rest => s ++ renderClaimRest rest
  | .idx i :: rest => brack i ++ renderClaimRest rest

/-- Map a segment-path record to the string-path record the source emits:
paths render via `renderPath`; a `modified` record's empty rendering
becomes `/` (the `path or "/"` of line 80). -/
def renderChangeS : ChangeS → Change
  | .removed segs v => Change.removed (renderPath segs) v
  | .added segs v => Change.added (renderPath segs) v
  | .modified segs a b =>
    Change.modified (if renderPath segs = "" then "/" else renderPath segs) a b

/-- Resolve a logical path against a document: follow field names through
mappings and indices through lists. -/
def resolveSegs (v : JVal) : List Seg → Option JVal
  | [] => some v
  | Seg.name k :: rest =>
    match v with
    | .obj o =>
      match lookupF k o with
      | some w => resolveSegs w rest
      | none => none
    | _ => none
  | Seg.idx i :: rest =>
    match v with
    | .arr a =>
      match jget a i with
      | some w => resolveSegs w rest
      | _ => none
    | _ => none

/-- The keys of a dict are pairwise distinct (always true of a real
Python dict). -/
def nodupKeys : JObj → Bool
  | .nil => true
  | .cons k _ rest => (lookupF k rest).isNone && nodupKeys rest

mutual
/-- A parsed value is well formed when every mapping in it has unique
keys — the invariant every tree produced by `json.loads` or
`xmltodict.parse` satisfies. -/
def wfB : JVal → Bool
  | .prim _ => true
  | .arr a => wfArr a
  | .obj o => nodupKeys o && wfObj o
/-- All elements of a list are well formed. -/
def wfArr : JArr → Bool
  | .nil => true
  | .cons x rest => wfB x && wfArr rest
/-- All values of a dict are well formed. -/
def wfObj : JObj → Bool
  | .nil => true
  | .cons _ v rest => wfB v && wfObj rest
end

/-- `try_parse_json` (lines 21-25): `json.loads` is passed in as
`json_loads`, with `none` standing for a raised exception; the bare
`except` returns Python `None`, i.e. the JSON null value — so a parsed
`null` and a failure are indistinguishable to the caller. -/
def try_parse_json (json_loads : String → Option JVal) (text : String) : JVal :=
  match json_loads text with
  | some v => v
  | none => JVal.prim Prim.null

/-- `try_parse_xml` (lines 27-31), with `xmltodict.parse` passed in as
`xml_parse` under the same convention. -/
def try_parse_xml (xml_parse : String → Option JVal) (text : String) : JVal :=
  match xml_parse text with
  | some v => v
  | none => JVal.prim Prim.null

/-- `v is None` in Python: the parsed value is the null value. -/
def isNull : JVal → Bool
  | .prim .null => true
  | _ => false

/-- `normalize_to_object` (lines 33-41): try JSON, then XML, else opaque
text; the `is not None` guards are `isNull` tests. -/
def normalize_to_object (json_loads xml_parse : String → Option JVal)
    (text : String) : JVal × String :=
  let json_obj := try_parse_json json_loads text
  if isNull json_obj then
    let xml_obj := try_parse_xml xml_parse text
    if isNull xml_obj then (JVal.prim Prim.null, "text")
    else (xml_obj, "xml")
  else (json_obj, "json")

/-- `pretty_text_from_obj` (lines 43-46): `json.dumps` and `str` are the
parameters `dumps` and `str_of`. -/
def pretty_text_from_obj (dumps str_of : JVal → String) (obj : JVal)
    (fmt : String) : String :=
  if fmt = "json" ∨ fmt = "xml" then dumps obj else str_of obj

/-- The three report payloads `compare_files` writes to `diff_output/`:
the pretty texts feed the text and HTML emitters, and the JSON report is
either the change-record list or the explanatory placeholder message. -/
structure FileReports where
  pretty_old : String
  pretty_new : String
  txt_report : String
  html_report : String
  json_report : Sum (List Change) String

/-- The `info` message of the placeholder object written when no
structural diff was computed (lines 123-127). -/
def placeholderMsg : String :=
  "Structured diff unavailable; see diff_report.txt or diff_report.html."

/-- The pure dataflow core of `compare_files` (lines 85-127): file reads
and writes stripped, the unified-diff and HTML-diff library calls passed
in as `udiff` and `hdiff`. -/
def compare_files (json_loads xml_parse : String → Option JVal)
    (dumps str_of : JVal → String) (udiff hdiff : String → String → String)
    (raw_old raw_new : String) : FileReports :=
  let no := normalize_to_object json_loads xml_parse raw_old
  let nn := normalize_to_object json_loads xml_parse raw_new
  let obj_old := no.1
  let fmt_old := no.2
  let obj_new := nn.1
  let fmt_new := nn.2
  let go : Bool := !isNull obj_old && !isNull obj_new && fmt_old == fmt_new
  let structured_diff : Option (List Change) :=
    if go then some (compare_dicts obj_old obj_new "") else none
  let pretty_old :=
    if go then pretty_text_from_obj dumps str_of obj_old fmt_old
    else if !isNull obj_old then pretty_text_from_obj dumps str_of obj_old fmt_old
    else raw_old
  let pretty_new :=
    if go then pretty_text_from_obj dumps str_of obj_new fmt_new
    else if !isNull obj_new then pretty_text_from_obj dumps str_of obj_new fmt_new
    else raw_new
  { pretty_old := pretty_old
    pretty_new := pretty_new
    txt_report := udiff pretty_old pretty_new
    html_report := hdiff pretty_old pretty_new
    json_report :=
      match structured_diff with
      | some d => Sum.inl d
      | none => Sum.inr placeholderMsg }

/-- `isinstance(v, dict)`. -/
def isObjB : JVal → Bool
  | .obj _ => true
  | _ => false

/-- `isinstance(v, list)`. -/
def isArrB : JVal → Bool
  | .arr _ => true
  | _ => false

/-- Modelled from the spec: the strict JSON parser (`json.loads`), which is
third-party library code not in this repository, restricted to the handful
of literal documents exercised by the theorems below; every string
mentioned here is a valid strict JSON document with the recorded value
(`"null"` parses to the JSON null value), and any other input is reported
as a parse failure. -/
def json_loads_model : String → Option JVal := fun t =>
  if t = "null" then some (.prim .null)
  else if t = "false" then some (.prim (.bool false))
  else if t = "1" then some (.prim (.int 1))
  else none

/-- Modelled from the spec: the XML parser (`xmltodict.parse`), third-party
library code not in this repository, restricted to the single well-formed
document used below, mapped to a nested mapping per the conventional
XML-to-tree convention; anything else is reported as a parse failure
(in particular the plain text `"null"` is not well-formed XML). -/
def xml_parse_model : String → Option JVal := fun t =>
  if t = "<a>x</a>" then some (.obj (.cons "a" (.prim (.str "x")) .nil)) else none

/-- The spec's Change-Record invariant for one record, paths read as
logical segment sequences: a `removed` or `modified` record's path
resolves in the old document to the recorded old value, and an `added` or
`modified` record's path resolves in the new document to the recorded new
value. -/
def recordResolves (old new : JVal) : ChangeS → Prop
  | .removed p v => resolveSegs old p = some v
  | .added p v => resolveSegs new p = some v
  | .modified p a b => resolveSegs old p = some a ∧ resolveSegs new p = some b

/-- The path segments of a segment-path record. -/
def segsOfS : ChangeS → List Seg
  | .removed p _ => p
  | .added p _ => p
  | .modified p _ _ => p

/-- `recordResolves` relative to the current recursion point: the record's
path extends the current path `rest`-wise and `rest` resolves in the
current old/new values to the recorded values. -/
def relRes (old new : JVal) (rest : List Seg) : ChangeS → Prop
  | .removed _ v => resolveSegs old rest = some v
  | .added _ v => resolveSegs new rest = some v
  | .modified _ a b => resolveSegs old rest = some a ∧ resolveSegs new rest = some b

/-- All keys of a dict are nonempty strings. -/
def keysNonempty : JObj → Bool
  | .nil => true
  | .cons k _ rest => (k != "") && keysNonempty rest

/-- When the value is a mapping, its top-level keys are all nonempty
(an empty top-level key would make the rendered path of its subtree empty,
which line 54's `if path` truthiness test confuses with the root). -/
def topKeysNonempty : JVal → Bool
  | .obj o => keysNonempty o
  | _ => true

/-! ## Infrastructure: induction principles, sizes, lookup and toList lemmas -/

/-- Single-motive structural induction for `JObj`. -/
@[induction_eliminator]
theorem jobj_ind {motive : JObj → Prop} (nil : motive .nil)
    (cons : ∀ k v tl, motive tl → motive (.cons k v tl)) : ∀ o, motive o
  | .nil => nil
  | .cons k v tl => cons k v tl (jobj_ind nil cons tl)

/-- Single-motive structural induction for `JArr`. -/
@[induction_eliminator]
theorem jarr_ind {motive : JArr → Prop} (nil : motive .nil)
    (cons : ∀ x tl, motive tl → motive (.cons x tl)) : ∀ a, motive a
  | .nil => nil
  | .cons x tl => cons x tl (jarr_ind nil cons tl)

mutual
/-- Size of a value, the termination measure for inductions that follow
the recursion of `compare_dicts`. -/
def sizeV : JVal → Nat
  | .prim _ => 1
  | .arr a => sizeA a + 1
  | .obj o => sizeO o + 1
/-- Total size of a list's elements. -/
def sizeA : JArr → Nat
  | .nil => 0
  | .cons x tl => sizeV x + sizeA tl
/-- Total size of a dict's values. -/
def sizeO : JObj → Nat
  | .nil => 0
  | .cons _ v tl => sizeV v + sizeO tl
end

@[simp] theorem jobj_toList_nil : JObj.toList .nil = [] := rfl

@[simp] theorem jobj_toList_cons (k : String) (v : JVal) (tl : JObj) :
    JObj.toList (.cons k v tl) = (k, v) :: tl.toList := rfl

@[simp] theorem jarr_toList_nil : JArr.toList .nil = [] := rfl

@[simp] theorem jarr_toList_cons (x : JVal) (tl : JArr) :
    JArr.toList (.cons x tl) = x :: tl.toList := rfl

theorem sizeV_mem_arr {x : JVal} {a : JArr} (h : x ∈ JArr.toList a) :
    sizeV x ≤ sizeA a := by
  induction a with
  | nil => simp at h
  | cons y tl ih =>
    simp only [jarr_toList_cons, List.mem_cons] at h
    rcases h with h | h
    · subst h; simp [sizeA]
    · have := ih h; simp [sizeA]; omega

theorem sizeV_mem_obj {k : String} {v : JVal} {o : JObj}
    (h : (k, v) ∈ JObj.toList o) : sizeV v ≤ sizeO o := by
  induction o with
  | nil => simp at h
  | cons k' v' tl ih =>
    simp only [jobj_toList_cons, List.mem_cons] at h
    rcases h with h | h
    · cases h; simp [sizeO]
    · have := ih h; simp [sizeO]; omega

theorem lookupF_mem {k : String} {o : JObj} {w : JVal}
    (h : lookupF k o = some w) : (k, w) ∈ JObj.toList o := by
  induction o with
  | nil => simp [lookupF] at h
  | cons k' v' tl ih =>
    by_cases hk : k = k'
    · subst hk; simp [lookupF] at h; subst h; simp
    · simp [lookupF, hk] at h
      simp [ih h]

theorem sizeV_lookup {k : String} {o : JObj} {w : JVal}
    (h : lookupF k o = some w) : sizeV w ≤ sizeO o :=
  sizeV_mem_obj (lookupF_mem h)

theorem sizeV_pos (v : JVal) : 1 ≤ sizeV v := by
  cases v <;> simp [sizeV]

theorem lookupF_isSome_of_mem {k : String} {v : JVal} {o : JObj}
    (h : (k, v) ∈ JObj.toList o) : ∃ w, lookupF k o = some w := by
  induction o with
  | nil => simp at h
  | cons k' v' tl ih =>
    by_cases hk : k = k'
    · subst hk; exact ⟨v', by simp [lookupF]⟩
    · simp only [jobj_toList_cons, List.mem_cons] at h
      rcases h with h | h
      · cases h; cases hk rfl
      · rcases ih h with ⟨w, hw⟩; exact ⟨w, by simp [lookupF, hk, hw]⟩

theorem lookupF_of_mem_nodup {k : String} {v : JVal} {o : JObj}
    (hnd : nodupKeys o = true) (h : (k, v) ∈ JObj.toList o) :
    lookupF k o = some v := by
  induction o with
  | nil => simp at h
  | cons k' v' tl ih =>
    simp only [nodupKeys, Bool.and_eq_true, Option.isNone_iff_eq_none] at hnd
    simp only [jobj_toList_cons, List.mem_cons] at h
    rcases h with h | h
    · cases h; simp [lookupF]
    · have hk : k ≠ k' := by
        intro hkk
        subst hkk
        rcases lookupF_isSome_of_mem h with ⟨w, hw⟩
        rw [hnd.1] at hw
        cases hw
      simp [lookupF, hk, ih hnd.2 h]

theorem wfB_arr_mem {a : JArr} {x : JVal} (h : wfB (.arr a) = true)
    (hx : x ∈ JArr.toList a) : wfB x = true := by
  rw [wfB] at h
  induction a with
  | nil => simp at hx
  | cons y tl ih =>
    rw [wfArr] at h
    simp only [Bool.and_eq_true] at h
    simp only [jarr_toList_cons, List.mem_cons] at hx
    rcases hx with hx | hx
    · subst hx; exact h.1
    · exact ih h.2 hx

theorem wfObj_mem {o : JObj} {k : String} {v : JVal}
    (hv : (k, v) ∈ JObj.toList o) (h2 : wfObj o = true) : wfB v = true := by
  induction o with
  | nil => simp at hv
  | cons k' v' tl ih =>
    rw [wfObj] at h2
    simp only [Bool.and_eq_true] at h2
    simp only [jobj_toList_cons, List.mem_cons] at hv
    rcases hv with hv | hv
    · cases hv; exact h2.1
    · exact ih hv h2.2

theorem wfB_obj_mem {o : JObj} {k : String} {v : JVal}
    (h : wfB (.obj o) = true) (hv : (k, v) ∈ JObj.toList o) : wfB v = true := by
  rw [wfB] at h
  simp only [Bool.and_eq_true] at h
  exact wfObj_mem hv h.2

theorem wfB_obj_nodup {o : JObj} (h : wfB (.obj o) = true) :
    nodupKeys o = true := by
  rw [wfB] at h
  simp only [Bool.and_eq_true] at h
  exact h.1

theorem jlen_toList (a : JArr) : jlen a = a.toList.length := by
  induction a with
  | nil => simp [jlen]
  | cons x tl ih => simp [jlen, ih]

theorem jdrop_toList (n : Nat) (a : JArr) :
    JArr.toList (jdrop n a) = (JArr.toList a).drop n := by
  induction a generalizing n with
  | nil => cases n <;> simp [jdrop]
  | cons x tl ih => cases n <;> simp [jdrop, ih]

theorem jget_toList (a : JArr) (i : Nat) :
    jget a i = (JArr.toList a).get? i := by
  induction a generalizing i with
  | nil => cases i <;> simp [jget]
  | cons x tl ih => cases i <;> simp [jget, ih]

/-! ## List-combinator views of the differ's loops -/

theorem cmpOldKeys_eq (o n : JObj) (p : String) :
    cmpOldKeys o n p =
      (JObj.toList o).flatMap fun kv =>
        match lookupF kv.1 n with
        | none => [Change.removed (full_path p kv.1) kv.2]
        | some w => compare_dicts kv.2 w (full_path p kv.1) := by
  induction o with
  | nil => simp [cmpOldKeys]
  | cons k v tl ih =>
    rcases hx : lookupF k n with _ | w <;>
      simp [cmpOldKeys, hx, ih]

theorem cmpNewKeys_eq (n o : JObj) (p : String) :
    cmpNewKeys n o p =
      (JObj.toList n).filterMap fun kv =>
        match lookupF kv.1 o with
        | some _ => none
        | none => some (Change.added (full_path p kv.1) kv.2) := by
  induction n with
  | nil => simp [cmpNewKeys]
  | cons k w tl ih =>
    rcases hx : lookupF k o with _ | v <;>
      simp [cmpNewKeys, hx, ih]

theorem cmpCommon_eq (a b : JArr) (p : String) (i : Nat) :
    cmpCommon a b p i =
      (((JArr.toList a).zip (JArr.toList b)).enumFrom i).flatMap fun q =>
        compare_dicts q.2.1 q.2.2 (full_path p (brack q.1)) := by
  induction a generalizing b i with
  | nil => cases b <;> simp [cmpCommon]
  | cons x xs ih =>
    cases b with
    | nil => simp [cmpCommon]
    | cons y ys => simp [cmpCommon, ih]

theorem remSurplus_eq (r : JArr) (p : String) (i : Nat) :
    remSurplus r p i =
      ((JArr.toList r).enumFrom i).map fun q =>
        Change.removed (full_path p (brack q.1)) q.2 := by
  induction r generalizing i with
  | nil => simp [remSurplus]
  | cons x xs ih => simp [remSurplus, ih]

theorem addSurplus_eq (r : JArr) (p : String) (i : Nat) :
    addSurplus r p i =
      ((JArr.toList r).enumFrom i).map fun q =>
        Change.added (full_path p (brack q.1)) q.2 := by
  induction r generalizing i with
  | nil => simp [addSurplus]
  | cons x xs ih => simp [addSurplus, ih]

/-! ## Claim theorems -/

/-- C5: on a pair of mappings, `compare_dicts` first walks `old`'s entries
in insertion order — emitting one `removed` record carrying the old value
for a key absent from `new`, and the recursive diff at the dot-extended
path for a shared key — and then walks `new`'s entries in insertion order,
emitting one `added` record carrying the new value for each key absent
from `old`; in particular diffing `{"a": 1}` against `{"a": 1, "b": 2}`
yields exactly one `added` record at path `b` with value `2`. -/
theorem C5_mapping_diff :
    (∀ (o n : JObj) (p : String),
      compare_dicts (.obj o) (.obj n) p =
        ((JObj.toList o).flatMap fun kv =>
          match lookupF kv.1 n with
          | none => [Change.removed (full_path p kv.1) kv.2]
          | some w => compare_dicts kv.2 w (full_path p kv.1)) ++
        ((JObj.toList n).filterMap fun kv =>
          match lookupF kv.1 o with
          | some _ => none
          | none => some (Change.added (full_path p kv.1) kv.2))) ∧
    compare_dicts (.obj (.cons "a" (.prim (.int 1)) .nil))
      (.obj (.cons "a" (.prim (.int 1)) (.cons "b" (.prim (.int 2)) .nil))) ""
      = [Change.added "b" (.prim (.int 2))] := by
  constructor
  · intro o n p
    rw [compare_dicts, cmpOldKeys_eq, cmpNewKeys_eq]
  · rfl

/-- C6: on a pair of sequences, `compare_dicts` recurses elementwise over
the shared prefix of indices and then emits exactly one record per surplus
index of the longer sequence in ascending order — `removed` records
carrying the old elements when `old` is longer, `added` records carrying
the new elements when `new` is longer; in particular `[1,2,3]` against
`[1,2]` yields exactly one `removed` record at path `[2]` with value `3`,
and `[1,2]` against `[1,2,3]` exactly one `added` record at `[2]` with
value `3`. -/
theorem C6_sequence_diff :
    (∀ (a b : JArr) (p : String),
      compare_dicts (.arr a) (.arr b) p =
        (((JArr.toList a).zip (JArr.toList b)).enum.flatMap fun q =>
          compare_dicts q.2.1 q.2.2 (full_path p (brack q.1))) ++
        (if (JArr.toList a).length > (JArr.toList b).length then
          (((JArr.toList a).drop (JArr.toList b).length).enumFrom
              (JArr.toList b).length).map fun q =>
            Change.removed (full_path p (brack q.1)) q.2
         else if (JArr.toList b).length > (JArr.toList a).length then
          (((JArr.toList b).drop (JArr.toList a).length).enumFrom
              (JArr.toList a).length).map fun q =>
            Change.added (full_path p (brack q.1)) q.2
         else [])) ∧
    compare_dicts
      (.arr (.cons (.prim (.int 1)) (.cons (.prim (.int 2)) (.cons (.prim (.int 3)) .nil))))
      (.arr (.cons (.prim (.int 1)) (.cons (.prim (.int 2)) .nil))) ""
      = [Change.removed "[2]" (.prim (.int 3))] ∧
    compare_dicts
      (.arr (.cons (.prim (.int 1)) (.cons (.prim (.int 2)) .nil)))
      (.arr (.cons (.prim (.int 1)) (.cons (.prim (.int 2)) (.cons (.prim (.int 3)) .nil)))) ""
      = [Change.added "[2]" (.prim (.int 3))] := by
  refine ⟨?_, rfl, rfl⟩
  intro a b p
  rw [compare_dicts, cmpCommon_eq, remSurplus_eq, addSurplus_eq,
    jdrop_toList, jdrop_toList, jlen_toList, jlen_toList, List.enum]

theorem compare_dicts_leaf_eq (old new : JVal) (p : String)
    (h1 : (isObjB old && isObjB new) = false)
    (h2 : (isArrB old && isArrB new) = false) :
    compare_dicts old new p =
      if pyEq old new then []
      else [Change.modified (if p = "" then "/" else p) old new] := by
  cases old <;> cases new <;>
    first | rfl | exact Bool.noConfusion h1 | exact Bool.noConfusion h2

/-- C7: whenever the two values disagree on being a mapping, disagree on
being a sequence, or are two scalar leaves that Python's `==` distinguishes,
`compare_dicts` emits exactly one `modified` record at the current path
(the root path rendered as `/`) carrying both values. -/
theorem C7_modified_leaf (old new : JVal) (p : String)
    (h : isObjB old ≠ isObjB new ∨ isArrB old ≠ isArrB new ∨
      ∃ a b, old = .prim a ∧ new = .prim b ∧ primEq a b = false) :
    compare_dicts old new p =
      [Change.modified (if p = "" then "/" else p) old new] := by
  have key : pyEq old new = false := by
    rcases h with h | h | ⟨a, b, ha, hb, hne⟩
    · cases old <;> cases new <;> first | rfl | exact absurd rfl h
    · cases old <;> cases new <;> first | rfl | exact absurd rfl h
    · subst ha; subst hb; simpa [pyEq] using hne
  have shape1 : (isObjB old && isObjB new) = false := by
    rcases h with h | h | ⟨a, b, ha, hb, hne⟩
    · cases old <;> cases new <;> first | rfl | exact absurd rfl h
    · cases old <;> cases new <;> first | rfl | exact absurd rfl h
    · subst ha; rfl
  have shape2 : (isArrB old && isArrB new) = false := by
    rcases h with h | h | ⟨a, b, ha, hb, hne⟩
    · cases old <;> cases new <;> first | rfl | exact absurd rfl h
    · cases old <;> cases new <;> first | rfl | exact absurd rfl h
    · subst ha; rfl
  rw [compare_dicts_leaf_eq old new p shape1 shape2, key]
  simp

/-- C7 witness: `compare_dicts(5, "5")` is exactly one `modified` record at
path `/` with old `5` and new `"5"`. -/
theorem C7_modified_leaf_witness :
    (isObjB (.prim (.int 5)) ≠ isObjB (.prim (.str "5")) ∨
      isArrB (.prim (.int 5)) ≠ isArrB (.prim (.str "5")) ∨
      ∃ a b, (JVal.prim (.int 5)) = .prim a ∧ (JVal.prim (.str "5")) = .prim b ∧
        primEq a b = false) ∧
    compare_dicts (.prim (.int 5)) (.prim (.str "5")) "" =
      [Change.modified "/" (.prim (.int 5)) (.prim (.str "5"))] :=
  ⟨Or.inr (Or.inr ⟨Prim.int 5, Prim.str "5", rfl, rfl, rfl⟩),
    C7_modified_leaf _ _ _ (Or.inr (Or.inr ⟨Prim.int 5, Prim.str "5", rfl, rfl, rfl⟩))⟩

theorem isNull_true_iff (v : JVal) : isNull v = true ↔ v = JVal.prim Prim.null := by
  cases v with
  | prim p => cases p <;> simp [isNull]
  | arr a => simp [isNull]
  | obj o => simp [isNull]

theorem isNull_false_of_ne {v : JVal} (h : v ≠ JVal.prim Prim.null) :
    isNull v = false := by
  rcases hv : isNull v
  · rfl
  · exact absurd ((isNull_true_iff v).1 hv) h

/-- C2 counterexample: `"null"` is a valid strict JSON document — the
modelled `json.loads` accepts it, with value null — yet
`normalize_to_object` does not return format tag `"json"` for it: the
`is not None` guard of line 36 confuses the parsed null with a parse
failure, and the input degrades to the `"text"` branch. -/
theorem C2_counterexample :
    json_loads_model "null" = some (JVal.prim Prim.null) ∧
    normalize_to_object json_loads_model xml_parse_model "null" =
      (JVal.prim Prim.null, "text") ∧
    (normalize_to_object json_loads_model xml_parse_model "null").2 ≠ "json" :=
  ⟨rfl, rfl, by decide⟩

theorem normalize_cascade (jl xp : String → Option JVal) (t : String) :
    (∀ v, jl t = some v → v ≠ JVal.prim Prim.null →
      normalize_to_object jl xp t = (v, "json")) ∧
    ((jl t = none ∨ jl t = some (JVal.prim Prim.null)) →
      ∀ w, xp t = some w → w ≠ JVal.prim Prim.null →
        normalize_to_object jl xp t = (w, "xml")) ∧
    ((jl t = none ∨ jl t = some (JVal.prim Prim.null)) →
      (xp t = none ∨ xp t = some (JVal.prim Prim.null)) →
      normalize_to_object jl xp t = (JVal.prim Prim.null, "text")) := by
  refine ⟨?_, ?_, ?_⟩
  · intro v hv hne
    simp [normalize_to_object, try_parse_json, hv, isNull_false_of_ne hne]
  · intro hj w hw hne
    have hjson : try_parse_json jl t = JVal.prim Prim.null := by
      rcases hj with hj | hj <;> simp [try_parse_json, hj]
    simp [normalize_to_object, hjson, isNull, try_parse_xml, hw,
      isNull_false_of_ne hne]
  · intro hj hx
    have hjson : try_parse_json jl t = JVal.prim Prim.null := by
      rcases hj with hj | hj <;> simp [try_parse_json, hj]
    have hxml : try_parse_xml xp t = JVal.prim Prim.null := by
      rcases hx with hx | hx <;> simp [try_parse_xml, hx]
    simp [normalize_to_object, hjson, hxml, isNull]

/-- C2 (amended): the cascade of `normalize_to_object` holds with a null
carve-out — for every text whose strict JSON parse succeeds with a
non-null value, the result is `(value, "json")`; a JSON parse that fails
or yields null falls through to XML, returning `(value, "xml")` when the
XML parse yields a non-null value; and when both parsers fail or yield
null the result is `(None, "text")`. -/
theorem C2_format_cascade (jl xp : String → Option JVal) (t : String) :
    (∀ v, jl t = some v → v ≠ JVal.prim Prim.null →
      normalize_to_object jl xp t = (v, "json")) ∧
    ((jl t = none ∨ jl t = some (JVal.prim Prim.null)) →
      ∀ w, xp t = some w → w ≠ JVal.prim Prim.null →
        normalize_to_object jl xp t = (w, "xml")) ∧
    ((jl t = none ∨ jl t = some (JVal.prim Prim.null)) →
      (xp t = none ∨ xp t = some (JVal.prim Prim.null)) →
      normalize_to_object jl xp t = (JVal.prim Prim.null, "text")) :=
  normalize_cascade jl xp t

/-- C2 witness for the amended cascade: `"false"` is strict JSON with the
non-null value `False`, and `normalize_to_object` tags it `"json"`;
`"<a>x</a>"` is not JSON but parses as XML, and is tagged `"xml"`. -/
theorem C2_format_cascade_witness :
    json_loads_model "false" = some (JVal.prim (Prim.bool false)) ∧
    normalize_to_object json_loads_model xml_parse_model "false" =
      (JVal.prim (Prim.bool false), "json") ∧
    xml_parse_model "<a>x</a>" = some (.obj (.cons "a" (.prim (.str "x")) .nil)) ∧
    normalize_to_object json_loads_model xml_parse_model "<a>x</a>" =
      (.obj (.cons "a" (.prim (.str "x")) .nil), "xml") := by
  refine ⟨rfl, ?_, rfl, ?_⟩
  · exact (C2_format_cascade json_loads_model xml_parse_model "false").1
      (JVal.prim (Prim.bool false)) rfl
      (by intro hc; injection hc with hc2; exact Prim.noConfusion hc2)
  · exact (C2_format_cascade json_loads_model xml_parse_model "<a>x</a>").2.1
      (Or.inl rfl) (.obj (.cons "a" (.prim (.str "x")) .nil)) rfl (by simp)

/-- C9: the parse helpers absorb every failure — a failing `json.loads`
makes `try_parse_json` return `None`, a failing `xmltodict.parse` makes
`try_parse_xml` return `None`, and when both fail `normalize_to_object`
still returns a result, namely `(None, "text")`; no exception escapes the
cascade. -/
theorem C9_no_exceptions (jl xp : String → Option JVal) (t : String) :
    (jl t = none → try_parse_json jl t = JVal.prim Prim.null) ∧
    (xp t = none → try_parse_xml xp t = JVal.prim Prim.null) ∧
    (jl t = none → xp t = none →
      normalize_to_object jl xp t = (JVal.prim Prim.null, "text")) := by
  refine ⟨?_, ?_, ?_⟩
  · intro h; simp [try_parse_json, h]
  · intro h; simp [try_parse_xml, h]
  · intro hj hx
    exact (normalize_cascade jl xp t).2.2 (Or.inl hj) (Or.inl hx)

/-- C9 witness: on an input neither parser accepts, both helpers return
`None` and the cascade degrades to `(None, "text")`. -/
theorem C9_no_exceptions_witness :
    try_parse_json (fun _ => none) "not-a-doc" = JVal.prim Prim.null ∧
    try_parse_xml (fun _ => none) "not-a-doc" = JVal.prim Prim.null ∧
    normalize_to_object (fun _ => none) (fun _ => none) "not-a-doc" =
      (JVal.prim Prim.null, "text") := by
  have h := C9_no_exceptions (fun _ => none) (fun _ => none) "not-a-doc"
  exact ⟨h.1 rfl, h.2.1 rfl, h.2.2 rfl rfl⟩

theorem normalize_text_isNull (jl xp : String → Option JVal) (t : String)
    (h : (normalize_to_object jl xp t).2 = "text") :
    isNull (normalize_to_object jl xp t).1 = true := by
  simp only [normalize_to_object] at h ⊢
  by_cases h1 : isNull (try_parse_json jl t) = true
  · rw [if_pos h1] at h ⊢
    by_cases h2 : isNull (try_parse_xml xp t) = true
    · rw [if_pos h2]; rfl
    · rw [if_neg h2] at h; simp at h
  · rw [if_neg h1] at h; simp at h

/-- C8: whenever the two inputs normalize to different format tags, or
either degrades to the opaque `"text"` format (it fails to parse as a
structured format), `compare_files` does not compute the structural diff:
the JSON report receives the single-key explanatory placeholder — never an
empty or partial change-record list — while the text and HTML reports are
still produced from the two pretty texts. -/
theorem C8_placeholder (jl xp : String → Option JVal)
    (dumps str_of : JVal → String) (udiff hdiff : String → String → String)
    (raw_old raw_new : String)
    (h : (normalize_to_object jl xp raw_old).2 ≠ (normalize_to_object jl xp raw_new).2 ∨
      (normalize_to_object jl xp raw_old).2 = "text" ∨
      (normalize_to_object jl xp raw_new).2 = "text") :
    (compare_files jl xp dumps str_of udiff hdiff raw_old raw_new).json_report =
      Sum.inr placeholderMsg ∧
    (compare_files jl xp dumps str_of udiff hdiff raw_old raw_new).txt_report =
      udiff (compare_files jl xp dumps str_of udiff hdiff raw_old raw_new).pretty_old
        (compare_files jl xp dumps str_of udiff hdiff raw_old raw_new).pretty_new ∧
    (compare_files jl xp dumps str_of udiff hdiff raw_old raw_new).html_report =
      hdiff (compare_files jl xp dumps str_of udiff hdiff raw_old raw_new).pretty_old
        (compare_files jl xp dumps str_of udiff hdiff raw_old raw_new).pretty_new := by
  refine ⟨?_, rfl, rfl⟩
  have hgo : (!isNull (normalize_to_object jl xp raw_old).1 &&
      !isNull (normalize_to_object jl xp raw_new).1 &&
        ((normalize_to_object jl xp raw_old).2 == (normalize_to_object jl xp raw_new).2))
      = false := by
    rcases h with h | h | h
    · have : ((normalize_to_object jl xp raw_old).2 ==
          (normalize_to_object jl xp raw_new).2) = false := by
        simpa using h
      simp [this]
    · simp [normalize_text_isNull jl xp raw_old h]
    · simp [normalize_text_isNull jl xp raw_new h]
  simp only [compare_files]
  rw [hgo]
  simp

/-- C8 witness: old file valid JSON (`"1"`), new file valid XML
(`"<a>x</a>"`): the JSON report is the placeholder and the text/HTML
reports are still emitted from the pretty texts. -/
theorem C8_placeholder_witness :
    ((normalize_to_object json_loads_model xml_parse_model "1").2 ≠
        (normalize_to_object json_loads_model xml_parse_model "<a>x</a>").2 ∨
      (normalize_to_object json_loads_model xml_parse_model "1").2 = "text" ∨
      (normalize_to_object json_loads_model xml_parse_model "<a>x</a>").2 = "text") ∧
    (compare_files json_loads_model xml_parse_model (fun _ => "") (fun _ => "")
        (fun a b => a ++ b) (fun a b => b ++ a) "1" "<a>x</a>").json_report =
      Sum.inr placeholderMsg := by
  have hne : (normalize_to_object json_loads_model xml_parse_model "1").2 ≠
      (normalize_to_object json_loads_model xml_parse_model "<a>x</a>").2 := by decide
  exact ⟨Or.inl hne,
    (C8_placeholder json_loads_model xml_parse_model (fun _ => "") (fun _ => "")
      (fun a b => a ++ b) (fun a b => b ++ a) "1" "<a>x</a>" (Or.inl hne)).1⟩

/-- C10: leaf comparison uses Python's cross-type `==`, so type-distinct
scalars can be reported as unchanged: diffing the integer `1` against the
boolean `True` — and against the float `1.0` — returns the empty change
list rather than a `modified` record. -/
theorem C10_cross_type_equality :
    compare_dicts (.prim (.int 1)) (.prim (.bool true)) "" = [] ∧
    compare_dicts (.prim (.int 1)) (.prim (.float 1)) "" = [] :=
  ⟨rfl, rfl⟩

theorem primEq_refl (a : Prim) : primEq a a = true := by
  cases a <;> simp [primEq, numVal]

theorem cmpCommon_self (a : JArr) (p : String) (i : Nat)
    (ih : ∀ x ∈ JArr.toList a, ∀ p', compare_dicts x x p' = []) :
    cmpCommon a a p i = [] := by
  induction a generalizing i with
  | nil => rfl
  | cons x xs ihx =>
    rw [cmpCommon, ih x (by simp)]
    simp only [List.nil_append]
    exact ihx (i + 1) (fun y hy p' => ih y (by simp [hy]) p')

theorem cmpNewKeys_self (n o : JObj) (p : String)
    (hsub : ∀ k w, (k, w) ∈ JObj.toList n → ∃ v, lookupF k o = some v) :
    cmpNewKeys n o p = [] := by
  induction n with
  | nil => rfl
  | cons k w tl ih =>
    rcases hsub k w (by simp) with ⟨v, hv⟩
    rw [cmpNewKeys, hv]
    simp only [List.nil_append]
    exact ih (fun k' w' h' => hsub k' w' (by simp [h']))

theorem cmpOldKeys_self (o' o : JObj) (p : String)
    (hsub : ∀ k v, (k, v) ∈ JObj.toList o' → lookupF k o = some v)
    (ih : ∀ k v, (k, v) ∈ JObj.toList o' → ∀ p', compare_dicts v v p' = []) :
    cmpOldKeys o' o p = [] := by
  induction o' with
  | nil => rfl
  | cons k v tl iht =>
    have hv : lookupF k o = some v := hsub k v (by simp)
    rw [cmpOldKeys]
    simp only [hv, ih k v (by simp), List.nil_append]
    exact iht (fun k' v' h' => hsub k' v' (by simp [h']))
      (fun k' v' h' => ih k' v' (by simp [h']))

theorem compare_dicts_self_aux :
    ∀ N v, sizeV v ≤ N → wfB v = true → ∀ p, compare_dicts v v p = [] := by
  intro N
  induction N with
  | zero =>
    intro v hs
    have := sizeV_pos v
    omega
  | succ N ih =>
    intro v hs hwf p
    cases v with
    | prim a =>
      rw [compare_dicts_leaf_eq (JVal.prim a) (JVal.prim a) p rfl rfl]
      simp [pyEq, primEq_refl a]
    | arr a =>
      have hmem : ∀ x ∈ JArr.toList a, ∀ p', compare_dicts x x p' = [] := by
        intro x hx p'
        refine ih x ?_ (wfB_arr_mem hwf hx) p'
        have h1 := sizeV_mem_arr hx
        have h2 : sizeV (JVal.arr a) = sizeA a + 1 := rfl
        omega
      rw [compare_dicts, cmpCommon_self a p 0 hmem]
      simp
    | obj o =>
      have hnd := wfB_obj_nodup hwf
      have hsub : ∀ k v, (k, v) ∈ JObj.toList o → lookupF k o = some v :=
        fun k v hv => lookupF_of_mem_nodup hnd hv
      have hmem : ∀ k v, (k, v) ∈ JObj.toList o → ∀ p', compare_dicts v v p' = [] := by
        intro k v hv p'
        refine ih v ?_ (wfB_obj_mem hwf hv) p'
        have h1 := sizeV_mem_obj hv
        have h2 : sizeV (JVal.obj o) = sizeO o + 1 := rfl
        omega
      rw [compare_dicts, cmpOldKeys_self o o p hsub hmem,
        cmpNewKeys_self o o p (fun k w hw => ⟨_, hsub k w hw⟩)]
      simp

/-- C4: diffing any well-formed parsed document (every mapping in it has
unique keys, as every tree produced by a parser does) against itself with
the empty path yields the empty change list. -/
theorem C4_self_diff_empty (A : JVal) (h : wfB A = true) :
    compare_dicts A A "" = [] :=
  compare_dicts_self_aux (sizeV A) A le_rfl h ""

/-- C4 witness: a concrete nested document diffed against itself gives no
change records. -/
theorem C4_self_diff_empty_witness :
    wfB (.obj (.cons "a" (.arr (.cons (.prim (.int 1)) (.cons (.prim .null) .nil)))
      (.cons "b" (.prim (.str "x")) .nil))) = true ∧
    compare_dicts
      (.obj (.cons "a" (.arr (.cons (.prim (.int 1)) (.cons (.prim .null) .nil)))
        (.cons "b" (.prim (.str "x")) .nil)))
      (.obj (.cons "a" (.arr (.cons (.prim (.int 1)) (.cons (.prim .null) .nil)))
        (.cons "b" (.prim (.str "x")) .nil))) "" = [] :=
  ⟨rfl, C4_self_diff_empty _ rfl⟩

/-! ## Path rendering lemmas -/

theorem brack_ne_empty (i : Nat) : brack i ≠ "" := by
  intro h
  have h2 := congrArg String.length h
  rw [brack, String.length_append, String.length_append] at h2
  have e1 : ("[" : String).length = 1 := rfl
  have e2 : ("]" : String).length = 1 := rfl
  have e3 : ("" : String).length = 0 := rfl
  rw [e1, e2, e3] at h2
  omega

theorem renderPath_cons_cons (g g' : Seg) (rest : List Seg) :
    renderPath (g :: g' :: rest) = seg_str g ++ "." ++ renderPath (g' :: rest) :=
  rfl

theorem renderPath_append_single (segs : List Seg) (g : Seg) (hne : segs ≠ []) :
    renderPath (segs ++ [g]) = renderPath segs ++ "." ++ seg_str g := by
  induction segs with
  | nil => cases hne rfl
  | cons a tl ih =>
    cases tl with
    | nil => rfl
    | cons b tl2 =>
      have h2 := ih (by simp)
      calc renderPath ((a :: b :: tl2) ++ [g])
          = seg_str a ++ "." ++ renderPath ((b :: tl2) ++ [g]) := rfl
        _ = seg_str a ++ "." ++ (renderPath (b :: tl2) ++ "." ++ seg_str g) := by
              rw [h2]
        _ = renderPath (a :: b :: tl2) ++ "." ++ seg_str g := by
              rw [renderPath_cons_cons]
              simp [String.append_assoc]

theorem renderPath_ne_empty_append (segs : List Seg) (g : Seg) (hne : segs ≠ []) :
    renderPath (segs ++ [g]) ≠ "" := by
  rw [renderPath_append_single segs g hne]
  intro hc
  have h2 := congrArg String.length hc
  rw [String.length_append, String.length_append] at h2
  have e1 : ("." : String).length = 1 := rfl
  have e3 : ("" : String).length = 0 := rfl
  rw [e1, e3] at h2
  omega

theorem renderPath_single (g : Seg) : renderPath [g] = seg_str g := rfl

theorem full_path_renderPath (segs : List Seg) (g : Seg)
    (hgood : segs = [] ∨ renderPath segs ≠ "") :
    full_path (renderPath segs) (seg_str g) = renderPath (segs ++ [g]) := by
  rcases hgood with hnil | hne
  · subst hnil
    rfl
  · have hne' : segs ≠ [] := by
      intro hc
      subst hc
      exact hne rfl
    rw [full_path, if_neg hne, renderPath_append_single segs g hne']

/-! ## Bridge: string-path records are the rendering of segment-path records -/

theorem keysNonempty_mem {o : JObj} {k : String} {v : JVal}
    (ht : keysNonempty o = true) (hv : (k, v) ∈ JObj.toList o) : k ≠ "" := by
  induction o with
  | nil => simp at hv
  | cons k' v' tl ih =>
    rw [keysNonempty, Bool.and_eq_true, bne_iff_ne] at ht
    simp only [jobj_toList_cons, List.mem_cons] at hv
    rcases hv with hv | hv
    · cases hv; exact ht.1
    · exact ih ht.2 hv

theorem compare_seg_leaf_eq (old new : JVal) (segs : List Seg)
    (h1 : (isObjB old && isObjB new) = false)
    (h2 : (isArrB old && isArrB new) = false) :
    compare_seg old new segs =
      if pyEq old new then [] else [ChangeS.modified segs old new] := by
  cases old <;> cases new <;>
    first | rfl | exact Bool.noConfusion h1 | exact Bool.noConfusion h2

theorem cmpSegNewKeys_bridge (n o : JObj) (p : String) (segs : List Seg)
    (hp : ∀ k, full_path p k = renderPath (segs ++ [Seg.name k])) :
    cmpNewKeys n o p = (cmpSegNewKeys n o segs).map renderChangeS := by
  induction n with
  | nil => rfl
  | cons k w tl ih =>
    rcases hx : lookupF k o with _ | v <;>
      simp [cmpNewKeys, cmpSegNewKeys, hx, ih, renderChangeS, hp k]

theorem remSegSurplus_bridge (r : JArr) (p : String) (segs : List Seg)
    (hp : ∀ i, full_path p (brack i) = renderPath (segs ++ [Seg.idx i])) :
    ∀ i, remSurplus r p i = (remSegSurplus r segs i).map renderChangeS := by
  induction r with
  | nil => intro i; rfl
  | cons x xs ih =>
    intro i
    simp [remSurplus, remSegSurplus, renderChangeS, hp i, ih]

theorem addSegSurplus_bridge (r : JArr) (p : String) (segs : List Seg)
    (hp : ∀ i, full_path p (brack i) = renderPath (segs ++ [Seg.idx i])) :
    ∀ i, addSurplus r p i = (addSegSurplus r segs i).map renderChangeS := by
  induction r with
  | nil => intro i; rfl
  | cons x xs ih =>
    intro i
    simp [addSurplus, addSegSurplus, renderChangeS, hp i, ih]

theorem cmpSegOldKeys_bridge (o n : JObj) (p : String) (segs : List Seg)
    (hp : ∀ k, full_path p k = renderPath (segs ++ [Seg.name k]))
    (hrec : ∀ k v w, (k, v) ∈ JObj.toList o → lookupF k n = some w →
      compare_dicts v w (full_path p k) =
        (compare_seg v w (segs ++ [Seg.name k])).map renderChangeS) :
    cmpOldKeys o n p = (cmpSegOldKeys o n segs).map renderChangeS := by
  induction o with
  | nil => rfl
  | cons k v tl ih =>
    rcases hx : lookupF k n with _ | w
    · simp only [cmpOldKeys, cmpSegOldKeys, hx, List.map_append, List.map_cons,
        List.map_nil, renderChangeS, hp k]
      rw [ih (fun k' v' w' h' => hrec k' v' w' (by simp [h']))]
    · simp only [cmpOldKeys, cmpSegOldKeys, hx, List.map_append]
      rw [hrec k v w (by simp) hx,
        ih (fun k' v' w' h' => hrec k' v' w' (by simp [h']))]

theorem cmpSegCommon_bridge (a b : JArr) (p : String) (segs : List Seg)
    (hrec : ∀ j x y, x ∈ JArr.toList a → y ∈ JArr.toList b →
      compare_dicts x y (full_path p (brack j)) =
        (compare_seg x y (segs ++ [Seg.idx j])).map renderChangeS) :
    ∀ i, cmpCommon a b p i = (cmpSegCommon a b segs i).map renderChangeS := by
  induction a generalizing b with
  | nil => intro i; cases b <;> rfl
  | cons x xs ih =>
    intro i
    cases b with
    | nil => rfl
    | cons y ys =>
      simp only [cmpCommon, cmpSegCommon, List.map_append]
      rw [hrec i x y (by simp) (by simp),
        ih ys (fun j x' y' hx' hy' => hrec j x' y' (by simp [hx']) (by simp [hy']))
          (i + 1)]

theorem bridge_aux :
    ∀ N old new segs, sizeV old + sizeV new ≤ N →
      (renderPath segs = "" → segs = []) →
      (segs = [] → topKeysNonempty old = true) →
      compare_dicts old new (renderPath segs) =
        (compare_seg old new segs).map renderChangeS := by
  intro N
  induction N with
  | zero =>
    intro old new segs hs
    have := sizeV_pos old
    have := sizeV_pos new
    omega
  | succ N ih =>
    intro old new segs hs hgood htop
    have hgood' : segs = [] ∨ renderPath segs ≠ "" := by
      by_cases hc : renderPath segs = ""
      · exact Or.inl (hgood hc)
      · exact Or.inr hc
    have hidx : ∀ j : Nat,
        full_path (renderPath segs) (brack j) = renderPath (segs ++ [Seg.idx j]) :=
      fun j => full_path_renderPath segs (Seg.idx j) hgood'
    have hidxgood : ∀ j : Nat,
        (renderPath (segs ++ [Seg.idx j]) = "" → segs ++ [Seg.idx j] = []) := by
      intro j hc
      rcases hgood' with hnil | hne
      · subst hnil
        exact absurd hc (brack_ne_empty j)
      · exact absurd hc
          (renderPath_ne_empty_append segs (Seg.idx j) (fun h => hne (h ▸ rfl)))
    cases old with
    | prim a =>
      rw [compare_dicts_leaf_eq (JVal.prim a) new (renderPath segs) rfl rfl,
        compare_seg_leaf_eq (JVal.prim a) new segs rfl rfl]
      rcases hpq : pyEq (JVal.prim a) new
      · simp [renderChangeS]
      · simp
    | arr a =>
      cases new with
      | arr b =>
        rw [compare_dicts, compare_seg, List.map_append]
        have hrec : ∀ j x y, x ∈ JArr.toList a → y ∈ JArr.toList b →
            compare_dicts x y (full_path (renderPath segs) (brack j)) =
              (compare_seg x y (segs ++ [Seg.idx j])).map renderChangeS := by
          intro j x y hx hy
          rw [hidx j]
          refine ih x y (segs ++ [Seg.idx j]) ?_ (hidxgood j) (by simp)
          have e1 : sizeV (JVal.arr a) = sizeA a + 1 := rfl
          have e2 : sizeV (JVal.arr b) = sizeA b + 1 := rfl
          have m1 := sizeV_mem_arr hx
          have m2 := sizeV_mem_arr hy
          omega
        rw [cmpSegCommon_bridge a b (renderPath segs) segs hrec 0]
        congr 1
        by_cases hab : jlen a > jlen b
        · rw [if_pos hab, if_pos hab,
            remSegSurplus_bridge (jdrop (jlen b) a) (renderPath segs) segs hidx]
        · rw [if_neg hab, if_neg hab]
          by_cases hba : jlen b > jlen a
          · rw [if_pos hba, if_pos hba,
              addSegSurplus_bridge (jdrop (jlen a) b) (renderPath segs) segs hidx]
          · rw [if_neg hba, if_neg hba]
            rfl
      | prim pb =>
        rw [compare_dicts_leaf_eq (JVal.arr a) (JVal.prim pb) (renderPath segs) rfl rfl,
          compare_seg_leaf_eq (JVal.arr a) (JVal.prim pb) segs rfl rfl]
        rcases hpq : pyEq (JVal.arr a) (JVal.prim pb)
        · simp [renderChangeS]
        · simp
      | obj ob =>
        rw [compare_dicts_leaf_eq (JVal.arr a) (JVal.obj ob) (renderPath segs) rfl rfl,
          compare_seg_leaf_eq (JVal.arr a) (JVal.obj ob) segs rfl rfl]
        rcases hpq : pyEq (JVal.arr a) (JVal.obj ob)
        · simp [renderChangeS]
        · simp
    | obj o =>
      cases new with
      | obj n =>
        have hname : ∀ k : String,
            full_path (renderPath segs) k = renderPath (segs ++ [Seg.name k]) :=
          fun k => full_path_renderPath segs (Seg.name k) hgood'
        rw [compare_dicts, compare_seg, List.map_append]
        have hrec : ∀ k v w, (k, v) ∈ JObj.toList o → lookupF k n = some w →
            compare_dicts v w (full_path (renderPath segs) k) =
              (compare_seg v w (segs ++ [Seg.name k])).map renderChangeS := by
          intro k v w hv hw
          rw [hname k]
          have hkgood : renderPath (segs ++ [Seg.name k]) = "" →
              segs ++ [Seg.name k] = [] := by
            intro hc
            rcases hgood' with hnil | hne
            · subst hnil
              have hk : k ≠ "" := by
                have ht := htop rfl
                rw [topKeysNonempty] at ht
                exact keysNonempty_mem ht hv
              exact absurd hc hk
            · exact absurd hc
                (renderPath_ne_empty_append segs (Seg.name k) (fun h => hne (h ▸ rfl)))
          refine ih v w (segs ++ [Seg.name k]) ?_ hkgood (by simp)
          have e1 : sizeV (JVal.obj o) = sizeO o + 1 := rfl
          have e2 : sizeV (JVal.obj n) = sizeO n + 1 := rfl
          have m1 := sizeV_mem_obj hv
          have m2 := sizeV_lookup hw
          omega
        rw [cmpSegOldKeys_bridge o n (renderPath segs) segs hname hrec,
          cmpSegNewKeys_bridge n o (renderPath segs) segs hname]
      | prim pb =>
        rw [compare_dicts_leaf_eq (JVal.obj o) (JVal.prim pb) (renderPath segs) rfl rfl,
          compare_seg_leaf_eq (JVal.obj o) (JVal.prim pb) segs rfl rfl]
        rcases hpq : pyEq (JVal.obj o) (JVal.prim pb)
        · simp [renderChangeS]
        · simp
      | arr ab =>
        rw [compare_dicts_leaf_eq (JVal.obj o) (JVal.arr ab) (renderPath segs) rfl rfl,
          compare_seg_leaf_eq (JVal.obj o) (JVal.arr ab) segs rfl rfl]
        rcases hpq : pyEq (JVal.obj o) (JVal.arr ab)
        · simp [renderChangeS]
        · simp

/-- C3 counterexample: diffing `{"a": [1]}` against `{"a": [2]}` emits a
record whose path string is `a.[0]` — a dot *does* separate the field name
from the bracketed index — whereas the claim's rendering of the segment
sequence `a`, `[0]` is `a[0]`; the two strings differ. -/
theorem C3_counterexample :
    compare_dicts (.obj (.cons "a" (.arr (.cons (.prim (.int 1)) .nil)) .nil))
      (.obj (.cons "a" (.arr (.cons (.prim (.int 2)) .nil)) .nil)) "" =
      [Change.modified "a.[0]" (.prim (.int 1)) (.prim (.int 2))] ∧
    compare_seg (.obj (.cons "a" (.arr (.cons (.prim (.int 1)) .nil)) .nil))
      (.obj (.cons "a" (.arr (.cons (.prim (.int 2)) .nil)) .nil)) [] =
      [ChangeS.modified [Seg.name "a", Seg.idx 0] (.prim (.int 1)) (.prim (.int 2))] ∧
    renderClaim [Seg.name "a", Seg.idx 0] = "a[0]" ∧
    renderClaim [Seg.name "a", Seg.name "b", Seg.idx 2, Seg.name "c"] = "a.b[2].c" ∧
    ("a.[0]" : String) ≠ "a[0]" :=
  ⟨rfl, rfl, rfl, rfl, by decide⟩

/-- C3 (amended): every record emitted by `compare_dicts` from the root
carries the `renderPath` rendering of its logical path segments — all
segments joined by a dot, with a dot also before a bracketed index (so the
path through field `a`, index `0` renders `a.[0]`, not `a[0]`), and a
`modified` record at the empty root path rendered as `/` — provided the
top-level mapping keys are nonempty (an empty top-level key would make the
rendered path collide with the root).  Formally, the string-path records
are exactly the image under `renderChangeS` of the segment-path records. -/
theorem C3_path_rendering :
    (∀ old new, topKeysNonempty old = true →
      compare_dicts old new "" = (compare_seg old new []).map renderChangeS) ∧
    renderPath [Seg.name "a", Seg.idx 0] = "a.[0]" := by
  refine ⟨?_, rfl⟩
  intro old new h
  exact bridge_aux (sizeV old + sizeV new) old new [] le_rfl (fun _ => rfl)
    (fun _ => h)

/-- C3 witness: the amended rendering theorem applied to the
counterexample's concrete documents. -/
theorem C3_path_rendering_witness :
    topKeysNonempty (.obj (.cons "a" (.arr (.cons (.prim (.int 1)) .nil)) .nil)) = true ∧
    compare_dicts (.obj (.cons "a" (.arr (.cons (.prim (.int 1)) .nil)) .nil))
      (.obj (.cons "a" (.arr (.cons (.prim (.int 2)) .nil)) .nil)) "" =
      (compare_seg (.obj (.cons "a" (.arr (.cons (.prim (.int 1)) .nil)) .nil))
        (.obj (.cons "a" (.arr (.cons (.prim (.int 2)) .nil)) .nil)) []).map renderChangeS :=
  ⟨rfl, C3_path_rendering.1 _ _ rfl⟩

/-! ## Resolution: every emitted record's path resolves to its value -/

theorem resolveSegs_obj_cons {k : String} {o : JObj} {v : JVal}
    (h : lookupF k o = some v) (rest : List Seg) :
    resolveSegs (.obj o) (Seg.name k :: rest) = resolveSegs v rest := by
  simp [resolveSegs, h]

theorem resolveSegs_arr_cons {a : JArr} {j : Nat} {x : JVal}
    (h : jget a j = some x) (rest : List Seg) :
    resolveSegs (.arr a) (Seg.idx j :: rest) = resolveSegs x rest := by
  simp [resolveSegs, h]

theorem relRes_lift {old new v w : JVal} {s : Seg} {rest : List Seg} {r : ChangeS}
    (h1 : resolveSegs old (s :: rest) = resolveSegs v rest)
    (h2 : resolveSegs new (s :: rest) = resolveSegs w rest)
    (h : relRes v w rest r) : relRes old new (s :: rest) r := by
  cases r with
  | removed p val => simp only [relRes] at h ⊢; rw [h1]; exact h
  | added p val => simp only [relRes] at h ⊢; rw [h2]; exact h
  | modified p a b =>
    simp only [relRes] at h ⊢
    exact ⟨by rw [h1]; exact h.1, by rw [h2]; exact h.2⟩

theorem jget_mem {a : JArr} {j : Nat} {x : JVal} (h : jget a j = some x) :
    x ∈ JArr.toList a := by
  rw [jget_toList] at h
  exact List.get?_mem h

theorem jget_jdrop (n : Nat) (a : JArr) (j : Nat) :
    jget (jdrop n a) j = jget a (n + j) := by
  induction a generalizing n with
  | nil => cases n <;> simp [jdrop, jget]
  | cons x xs ih =>
    cases n with
    | zero => simp [jdrop]
    | succ m =>
      show jget (jdrop m xs) j = jget (JArr.cons x xs) (m + 1 + j)
      rw [show m + 1 + j = (m + j) + 1 from by omega]
      rw [show jget (JArr.cons x xs) ((m + j) + 1) = jget xs (m + j) from rfl]
      exact ih m

theorem cmpSegNewKeys_mem {n o : JObj} {segs : List Seg} {r : ChangeS}
    (hr : r ∈ cmpSegNewKeys n o segs) :
    ∃ k w, (k, w) ∈ JObj.toList n ∧ lookupF k o = none ∧
      r = ChangeS.added (segs ++ [Seg.name k]) w := by
  induction n with
  | nil => simp [cmpSegNewKeys] at hr
  | cons k w tl ih =>
    rw [cmpSegNewKeys] at hr
    rcases hx : lookupF k o with _ | v <;> rw [hx] at hr <;> simp only at hr
    · rcases List.mem_cons.mp hr with h | h
      · exact ⟨k, w, by simp, hx, h⟩
      · rcases ih h with ⟨k', w', hm, hl, he⟩
        exact ⟨k', w', by simp [hm], hl, he⟩
    · rw [List.nil_append] at hr
      rcases ih hr with ⟨k', w', hm, hl, he⟩
      exact ⟨k', w', by simp [hm], hl, he⟩

theorem remSegSurplus_mem {rest : JArr} {segs : List Seg} {i : Nat} {r : ChangeS}
    (hr : r ∈ remSegSurplus rest segs i) :
    ∃ j x, jget rest j = some x ∧
      r = ChangeS.removed (segs ++ [Seg.idx (i + j)]) x := by
  induction rest generalizing i with
  | nil => simp [remSegSurplus] at hr
  | cons x xs ih =>
    rw [remSegSurplus] at hr
    rcases List.mem_cons.mp hr with h | h
    · exact ⟨0, x, rfl, by simpa using h⟩
    · rcases ih h with ⟨j, y, hj, hy⟩
      refine ⟨j + 1, y, hj, ?_⟩
      rw [show i + (j + 1) = (i + 1) + j from by omega]
      exact hy

theorem addSegSurplus_mem {rest : JArr} {segs : List Seg} {i : Nat} {r : ChangeS}
    (hr : r ∈ addSegSurplus rest segs i) :
    ∃ j x, jget rest j = some x ∧
      r = ChangeS.added (segs ++ [Seg.idx (i + j)]) x := by
  induction rest generalizing i with
  | nil => simp [addSegSurplus] at hr
  | cons x xs ih =>
    rw [addSegSurplus] at hr
    rcases List.mem_cons.mp hr with h | h
    · exact ⟨0, x, rfl, by simpa using h⟩
    · rcases ih h with ⟨j, y, hj, hy⟩
      refine ⟨j + 1, y, hj, ?_⟩
      rw [show i + (j + 1) = (i + 1) + j from by omega]
      exact hy

theorem cmpSegCommon_mem {a b : JArr} {segs : List Seg} {i : Nat} {r : ChangeS}
    (hr : r ∈ cmpSegCommon a b segs i) :
    ∃ j x y, jget a j = some x ∧ jget b j = some y ∧
      r ∈ compare_seg x y (segs ++ [Seg.idx (i + j)]) := by
  induction a generalizing b i with
  | nil => cases b <;> simp [cmpSegCommon] at hr
  | cons x xs ih =>
    cases b with
    | nil => simp [cmpSegCommon] at hr
    | cons y ys =>
      rw [cmpSegCommon] at hr
      rcases List.mem_append.mp hr with h | h
      · exact ⟨0, x, y, rfl, rfl, by simpa using h⟩
      · rcases ih h with ⟨j, x', y', h1, h2, h3⟩
        refine ⟨j + 1, x', y', h1, h2, ?_⟩
        rw [show i + (j + 1) = (i + 1) + j from by omega]
        exact h3

theorem cmpSegOldKeys_mem {o n : JObj} {segs : List Seg} {r : ChangeS}
    (hr : r ∈ cmpSegOldKeys o n segs) :
    ∃ k v, (k, v) ∈ JObj.toList o ∧
      ((lookupF k n = none ∧ r = ChangeS.removed (segs ++ [Seg.name k]) v) ∨
        (∃ w, lookupF k n = some w ∧ r ∈ compare_seg v w (segs ++ [Seg.name k]))) := by
  induction o with
  | nil => simp [cmpSegOldKeys] at hr
  | cons k v tl ih =>
    rw [cmpSegOldKeys] at hr
    rcases hx : lookupF k n with _ | w <;> rw [hx] at hr
    · rcases List.mem_append.mp hr with h | h
      · exact ⟨k, v, by simp, Or.inl ⟨hx, by simpa using h⟩⟩
      · rcases ih h with ⟨k', v', hm, hcase⟩
        exact ⟨k', v', by simp [hm], hcase⟩
    · rcases List.mem_append.mp hr with h | h
      · exact ⟨k, v, by simp, Or.inr ⟨w, hx, h⟩⟩
      · rcases ih h with ⟨k', v', hm, hcase⟩
        exact ⟨k', v', by simp [hm], hcase⟩

theorem resolve_leaf {old new : JVal} {segs : List Seg} {r : ChangeS}
    (h1 : (isObjB old && isObjB new) = false)
    (h2 : (isArrB old && isArrB new) = false)
    (hr : r ∈ compare_seg old new segs) :
    ∃ rest, segsOfS r = segs ++ rest ∧ relRes old new rest r := by
  rw [compare_seg_leaf_eq old new segs h1 h2] at hr
  by_cases hpq : pyEq old new = true
  · rw [if_pos hpq] at hr
    simp at hr
  · rw [if_neg hpq] at hr
    rcases List.mem_singleton.mp hr with rfl
    exact ⟨[], by simp [segsOfS], by simp [relRes, resolveSegs]⟩

theorem resolve_aux :
    ∀ N old new segs, sizeV old + sizeV new ≤ N → wfB old = true →
      wfB new = true → ∀ r ∈ compare_seg old new segs,
        ∃ rest, segsOfS r = segs ++ rest ∧ relRes old new rest r := by
  intro N
  induction N with
  | zero =>
    intro old new segs hs
    have := sizeV_pos old
    have := sizeV_pos new
    omega
  | succ N ih =>
    intro old new segs hs hwo hwn r hr
    cases old with
    | prim a => exact resolve_leaf rfl rfl hr
    | arr a =>
      cases new with
      | prim pb => exact resolve_leaf rfl rfl hr
      | obj ob => exact resolve_leaf rfl rfl hr
      | arr b =>
        rw [compare_seg] at hr
        rcases List.mem_append.mp hr with h | h
        · rcases cmpSegCommon_mem h with ⟨j, x, y, hjx, hjy, hre⟩
          rw [Nat.zero_add] at hre
          have hwx : wfB x = true := wfB_arr_mem hwo (jget_mem hjx)
          have hwy : wfB y = true := wfB_arr_mem hwn (jget_mem hjy)
          have hsz : sizeV x + sizeV y ≤ N := by
            have e1 : sizeV (JVal.arr a) = sizeA a + 1 := rfl
            have e2 : sizeV (JVal.arr b) = sizeA b + 1 := rfl
            have m1 := sizeV_mem_arr (jget_mem hjx)
            have m2 := sizeV_mem_arr (jget_mem hjy)
            omega
          rcases ih x y (segs ++ [Seg.idx j]) hsz hwx hwy r hre with
            ⟨rest', hsegs, hrel⟩
          refine ⟨Seg.idx j :: rest', by rw [hsegs]; simp, ?_⟩
          exact relRes_lift (resolveSegs_arr_cons hjx rest')
            (resolveSegs_arr_cons hjy rest') hrel
        · by_cases hab : jlen a > jlen b
          · rw [if_pos hab] at h
            rcases remSegSurplus_mem h with ⟨j, x, hjx, rfl⟩
            rw [jget_jdrop] at hjx
            exact ⟨[Seg.idx (jlen b + j)], by simp [segsOfS],
              by simp [relRes, resolveSegs, hjx]⟩
          · rw [if_neg hab] at h
            by_cases hba : jlen b > jlen a
            · rw [if_pos hba] at h
              rcases addSegSurplus_mem h with ⟨j, x, hjx, rfl⟩
              rw [jget_jdrop] at hjx
              exact ⟨[Seg.idx (jlen a + j)], by simp [segsOfS],
                by simp [relRes, resolveSegs, hjx]⟩
            · rw [if_neg hba] at h
              simp at h
    | obj o =>
      cases new with
      | prim pb => exact resolve_leaf rfl rfl hr
      | arr ab => exact resolve_leaf rfl rfl hr
      | obj n =>
        rw [compare_seg] at hr
        rcases List.mem_append.mp hr with h | h
        · rcases cmpSegOldKeys_mem h with ⟨k, v, hkv, hcase⟩
          have hnd := wfB_obj_nodup hwo
          have hko : lookupF k o = some v := lookupF_of_mem_nodup hnd hkv
          rcases hcase with ⟨hkn, rfl⟩ | ⟨w, hkn, hre⟩
          · exact ⟨[Seg.name k], by simp [segsOfS],
              by simp [relRes, resolveSegs, hko]⟩
          · have hwv : wfB v = true := wfB_obj_mem hwo hkv
            have hww : wfB w = true := wfB_obj_mem hwn (lookupF_mem hkn)
            have hsz : sizeV v + sizeV w ≤ N := by
              have e1 : sizeV (JVal.obj o) = sizeO o + 1 := rfl
              have e2 : sizeV (JVal.obj n) = sizeO n + 1 := rfl
              have m1 := sizeV_mem_obj hkv
              have m2 := sizeV_lookup hkn
              omega
            rcases ih v w (segs ++ [Seg.name k]) hsz hwv hww r hre with
              ⟨rest', hsegs, hrel⟩
            refine ⟨Seg.name k :: rest', by rw [hsegs]; simp, ?_⟩
            exact relRes_lift (resolveSegs_obj_cons hko rest')
              (resolveSegs_obj_cons hkn rest') hrel
        · rcases cmpSegNewKeys_mem h with ⟨k, w, hkw, hko, rfl⟩
          have hndn := wfB_obj_nodup hwn
          have hkn : lookupF k n = some w := lookupF_of_mem_nodup hndn hkw
          exact ⟨[Seg.name k], by simp [segsOfS],
            by simp [relRes, resolveSegs, hkn]⟩

/-- C1: for every pair of well-formed documents (unique mapping keys, as
every parsed document has), every record emitted by the differ from the
root satisfies the spec's invariant — a `removed` or `modified` record's
path resolves in the old document to the recorded old value, and an
`added` or `modified` record's path resolves in the new document to the
recorded new value.  Paths are read as the logical segment sequences of
the spec's Path data model (the `compare_seg` view of `compare_dicts`). -/
theorem C1_resolution (old new : JVal) (h1 : wfB old = true)
    (h2 : wfB new = true) :
    ∀ r ∈ compare_seg old new [], recordResolves old new r := by
  intro r hr
  rcases resolve_aux (sizeV old + sizeV new) old new [] le_rfl h1 h2 r hr with
    ⟨rest, hseg, hrel⟩
  rw [List.nil_append] at hseg
  cases r with
  | removed p v =>
    rw [segsOfS] at hseg
    subst hseg
    exact hrel
  | added p v =>
    rw [segsOfS] at hseg
    subst hseg
    exact hrel
  | modified p a b =>
    rw [segsOfS] at hseg
    subst hseg
    exact hrel

/-- C1 witness: the invariant holds for the records of a concrete diff. -/
theorem C1_resolution_witness :
    wfB (.obj (.cons "a" (.prim (.int 1)) .nil)) = true ∧
    wfB (.obj (.cons "a" (.prim (.int 2)) .nil)) = true ∧
    ∀ r ∈ compare_seg (.obj (.cons "a" (.prim (.int 1)) .nil))
        (.obj (.cons "a" (.prim (.int 2)) .nil)) [],
      recordResolves (.obj (.cons "a" (.prim (.int 1)) .nil))
        (.obj (.cons "a" (.prim (.int 2)) .nil)) r :=
  ⟨rfl, rfl, C1_resolution _ _ rfl rfl⟩

end CompareResponses
